import Mathlib

/-
Verification of the Markov-chain text generator (src/src/lib.rs) against its
natural-language specification.

Shallow embedding notes:
* `HashMap<K, i32>` maps are embedded as association lists `List (K × Int)`;
  `bump m k` models `*m.entry(k).or_insert(0) += 1` (it updates the first
  entry with key `k`, or appends `(k, 1)` when the key is absent).  Only the
  edge map is ever iterated; since a `HashMap`'s iteration order is
  unspecified, every function that iterates the edges takes the enumeration
  (a list of keys) as an explicit parameter, and theorems quantify over any
  permutation of the stored keys.
* The random draw `thread_rng().gen_range(0.0, 1.0)` is an external input; it
  is modelled as an explicit parameter `index : ℚ` (one per sampling step).
  The source computes the cursor in `f32`; we use exact rationals.  Every
  theorem proved below about the sampler is insensitive to this abstraction:
  the error cases perform no arithmetic at all, and the "forced step" cases
  divide a weight by itself (`1/1`), which `f32` computes exactly, and compare
  the exact value `1.0` against a draw strictly below `1.0`.
* `i32` lengths and counts are embedded as `Int`; the counts built here are
  bounded by the corpus size, far below `i32` overflow.
* Rust's `str::to_lowercase` performs full Unicode lowercasing.  We model it
  exactly on every code point whose lowercase form contains an ASCII lowercase
  letter or a space: the letters `A`–`Z`, `U+212A` (KELVIN SIGN, lowercases to
  `k`) and `U+0130` (LATIN CAPITAL LETTER I WITH DOT ABOVE, lowercases to
  `i` followed by `U+0307`).  These are the only such code points in Unicode.
  All other code points are modelled as fixed by the fold; this is
  observationally equivalent through `split`, because `retain` keeps only
  `a`–`z` and space, so a code point whose lowercase image contains no such
  character is dropped whether or not it was folded.
* `str::split_whitespace` splits on Unicode whitespace; after `retain` the
  only whitespace character left is the ASCII space, so the embedding splits
  on runs of spaces.
-/

namespace Markov

/-- The error enum `MarkovErr` from the source (`Error`, `NotImplemented`,
`NotSeen { w }`; the spec calls the last one `UnseenToken`). -/
inductive MarkovErr where
  | error : MarkovErr
  | notImplemented : MarkovErr
  | notSeen : String → MarkovErr
deriving DecidableEq

/-- Association-list embedding of `*map.entry(k).or_insert(0) += 1`: increment
the first entry with key `k`, or append `(k, 1)` when `k` is absent. -/
def bump {α : Type} [DecidableEq α] : List (α × Int) → α → List (α × Int)
  | [], k => [(k, 1)]
  | (k', v) :: rest, k =>
    if k' = k then (k', v + 1) :: rest else (k', v) :: bump rest k

/-- Association-list embedding of `*map.get(k).unwrap_or(&0)`. -/
def lookupInt {α : Type} [DecidableEq α] : List (α × Int) → α → Int
  | [], _ => 0
  | (k', v) :: rest, k => if k' = k then v else lookupInt rest k

/-- The `Chain` struct: `nodes: HashMap<String, i32>` (the spec's `out_count`)
and `edges: HashMap<(String, String), i32>` (the spec's `edge`). -/
structure Chain where
  nodes : List (String × Int)
  edges : List ((String × String) × Int)
deriving DecidableEq

/-- `Chain::new()`. -/
def Chain.new : Chain := ⟨[], []⟩

/-- `Chain::see(a, b)`: increment `nodes[a]` and `edges[(a, b)]`. -/
def Chain.see (c : Chain) (a b : String) : Chain :=
  { nodes := bump c.nodes a, edges := bump c.edges (a, b) }

/-- The enumeration loop inside `Chain::next`: walk the given key enumeration,
skip keys whose first component is not `seed`, accumulate
`cursor += weight / counter`, and return the key's second component as soon as
`cursor` strictly exceeds the draw `index`.  Falls through to
`NotSeen(seed)` when the enumeration is exhausted. -/
def nextGo (c : Chain) (seed : String) (counter : Int) (index : ℚ) :
    List (String × String) → ℚ → Except MarkovErr String
  | [], _ => .error (.notSeen seed)
  | key :: rest, cursor =>
    if key.1 ≠ seed then nextGo c seed counter index rest cursor
    else
      let weight : Int := lookupInt c.edges key
      let cursor' : ℚ := cursor + (weight : ℚ) / (counter : ℚ)
      if index < cursor' then .ok key.2
      else nextGo c seed counter index rest cursor'

/-- `Chain::next(seed)`.  `keys` is the (unspecified-order) enumeration of
`self.edges.keys()` and `index` the random draw in `[0, 1)`. -/
def Chain.next (c : Chain) (keys : List (String × String)) (index : ℚ)
    (seed : String) : Except MarkovErr String :=
  let counter : Int := lookupInt c.nodes seed
  if counter = 0 then .error (.notSeen seed)
  else nextGo c seed counter index keys 0

/-- One character of `str::to_lowercase` (see the header note on the Unicode
abstraction). -/
def rustCharLower (c : Char) : List Char :=
  if 'A' ≤ c ∧ c ≤ 'Z' then [Char.ofNat (c.toNat + 32)]
  else if c = Char.ofNat 0x130 then [Char.ofNat 0x69, Char.ofNat 0x307]
  else if c = Char.ofNat 0x212A then [Char.ofNat 0x6B]
  else [c]

/-- `input.to_lowercase()` character by character. -/
def lowerChars : List Char → List Char
  | [] => []
  | c :: cs => rustCharLower c ++ lowerChars cs

/-- The predicate of `s.retain(|c| (c >= 'a' && c <= 'z') || c == ' ')`. -/
def keepChar (c : Char) : Bool :=
  (decide ('a' ≤ c) && decide (c ≤ 'z')) || decide (c = ' ')

/-- Lowercase then retain: the string handed to `split_whitespace`. -/
def cleanChars (s : List Char) : List Char := (lowerChars s).filter keepChar

/-- `split_whitespace` on the retained string (only spaces can remain):
`acc` is the current word being accumulated, in reverse. -/
def wordsAux : List Char → List Char → List (List Char)
  | acc, [] => if acc = [] then [] else [acc.reverse]
  | acc, c :: cs =>
    if c = ' ' then
      if acc = [] then wordsAux [] cs else acc.reverse :: wordsAux [] cs
    else wordsAux (c :: acc) cs

/-- Split a character list on runs of spaces, discarding empty words. -/
def words (s : List Char) : List (List Char) := wordsAux [] s

/-- The tokenizer `split` from the source: lowercase, retain `[a-z ]`,
split on whitespace. -/
def split (input : String) : List String :=
  (words (cleanChars input.data)).map String.mk

/-- The fold body of `gen`'s ingestion loop over the token list.  The
accumulator is `(chain, first, prev)`; a word is recorded against `prev`
unless `prev` is still the initial `""`, in which case it becomes `first`. -/
def ingestFold (acc : Chain × String × String) (word : String) :
    Chain × String × String :=
  if acc.2.2 ≠ "" then (acc.1.see acc.2.2 word, acc.2.1, word)
  else (acc.1, word, word)

/-- The chain `gen` builds from a token list: the ingestion loop followed by
the unconditional wrap-around `chain.see(&prev, &first)`. -/
def ingest (tokens : List String) : Chain :=
  let r := tokens.foldl ingestFold (Chain.new, "", "")
  r.1.see r.2.2 r.2.1

/-- The generation loop `for _ in 1..length { w = chain.next(&w)?; out.push(w) }`,
returning the list of sampled words.  `orders k` is the edge-key enumeration
the `k`-th call to `next` observes and `draws k` its random draw. -/
def walk (c : Chain) (orders : Nat → List (String × String)) (draws : Nat → ℚ) :
    String → Nat → Nat → Except MarkovErr (List String)
  | _, _, 0 => .ok []
  | w, k, n + 1 =>
    match Chain.next c (orders k) (draws k) w with
    | .error e => .error e
    | .ok w' =>
      match walk c orders draws w' (k + 1) n with
      | .error e => .error e
      | .ok ws => .ok (w' :: ws)

/-- `gen(input, init, length)`: build the chain from the tokenized corpus,
then emit `init` followed by `length - 1` sampled words (`for _ in 1..length`;
an `i32` length at most `1` yields no iterations). -/
def gen (input init : String) (length : Int)
    (orders : Nat → List (String × String)) (draws : Nat → ℚ) :
    Except MarkovErr (List String) :=
  match walk (ingest (split input)) orders draws init 0 (length - 1).toNat with
  | .error e => .error e
  | .ok ws => .ok (init :: ws)

/-- Modelled from the spec (claim C5): ASCII-only case folding — bytes
`A`–`Z` map to `a`–`z` and every other character is left unchanged. -/
def asciiLower (c : Char) : Char :=
  if 'A' ≤ c ∧ c ≤ 'Z' then Char.ofNat (c.toNat + 32) else c

/-- Modelled from the spec (claim C5): the reference tokenizer — ASCII-only
case fold, retain `[a-z ]`, split on runs of spaces discarding empties. -/
def specTokenize (input : String) : List String :=
  (words ((input.data.map asciiLower).filter keepChar)).map String.mk

/-- The ordered pairs `(tᵢ, tᵢ₊₁)` of a token sequence together with the
wrap-around pair `(tₙ₋₁, t₀)` (claim C2's "positions at which a token is
followed by some token"). -/
def wrapPairs : List String → List (String × String)
  | [] => []
  | t :: ts => (t :: ts).zip (ts ++ [t])

/-- The sum `Σ_b edge[(a, b)]` over the stored edge entries. -/
def sumOut : List ((String × String) × Int) → String → Int
  | [], _ => 0
  | (k, v) :: rest, a => (if k.1 = a then v else 0) + sumOut rest a

/-- Record a list of ordered pairs into a chain, in order. -/
def seeList : Chain → List (String × String) → Chain
  | c, [] => c
  | c, p :: ps => seeList (c.see p.1 p.2) ps

/-- Join a list of character lists with single spaces (the spec's
`join(·, " ")` in claims C7). -/
def joinChars : List (List Char) → List Char
  | [] => []
  | [t] => t
  | t :: ts => t ++ ' ' :: joinChars ts

/-- Join tokens with single spaces, as a string. -/
def joinSpace (ts : List String) : String :=
  String.mk (joinChars (ts.map String.data))

/-- Both maps of a chain store only values `≥ 1`. -/
def Chain.wf (c : Chain) : Prop :=
  (∀ e ∈ c.nodes, 1 ≤ e.2) ∧ (∀ e ∈ c.edges, 1 ≤ e.2)

example : split "Hello, world!" = ["hello", "world"] := by decide
example : split "a b c" = ["a", "b", "c"] := by decide
example : gen "" "x" 2 (fun _ => [("", "")]) (fun _ => 0)
    = .error (.notSeen "x") := rfl
example : gen "a" "a" 0 (fun _ => [("a", "a")]) (fun _ => 0) = .ok ["a"] := rfl
example : split (String.mk [Char.ofNat 0x212A]) = ["k"] := by decide
example : specTokenize (String.mk [Char.ofNat 0x212A]) = [] := by decide

lemma lookupInt_bump {α : Type} [DecidableEq α] (m : List (α × Int)) (k a : α) :
    lookupInt (bump m k) a = lookupInt m a + (if k = a then 1 else 0) := by
  induction m with
  | nil => simp [bump, lookupInt]
  | cons e rest ih =>
    obtain ⟨k', v⟩ := e
    by_cases h : k' = k
    · subst h
      by_cases h2 : k' = a
      · subst h2; simp [bump, lookupInt]
      · simp [bump, lookupInt, h2]
    · by_cases h2 : k' = a
      · subst h2
        have hne : ¬ k = k' := fun hh => h hh.symm
        simp [bump, lookupInt, h, hne]
      · simp [bump, lookupInt, h, h2, ih]

lemma bump_mem_one_le {α : Type} [DecidableEq α] (m : List (α × Int)) (k : α)
    (h : ∀ e ∈ m, 1 ≤ e.2) : ∀ e ∈ bump m k, 1 ≤ e.2 := by
  induction m with
  | nil =>
    intro e he
    simp [bump] at he
    simp [he]
  | cons e0 rest ih =>
    obtain ⟨k', v⟩ := e0
    intro e he
    by_cases hk : k' = k
    · simp [bump, hk] at he
      rcases he with he | he
      · have hv := h (k', v) (by simp)
        simp at hv
        simp [he]
        omega
      · exact h e (by simp [he])
    · simp [bump, hk] at he
      rcases he with he | he
      · rw [he]
        exact h (k', v) (by simp)
      · exact ih (fun e' he' => h e' (by simp [he'])) e he

lemma lookupInt_nonneg {α : Type} [DecidableEq α] (m : List (α × Int))
    (h : ∀ e ∈ m, 1 ≤ e.2) (k : α) : 0 ≤ lookupInt m k := by
  induction m with
  | nil => simp [lookupInt]
  | cons e rest ih =>
    obtain ⟨k', v⟩ := e
    by_cases hk : k' = k
    · have hv := h (k', v) (by simp)
      simp at hv
      simp [lookupInt, hk]
      omega
    · simp [lookupInt, hk]
      exact ih fun e' he' => h e' (by simp [he'])

lemma sumOut_bump (edges : List ((String × String) × Int)) (k : String × String)
    (a : String) :
    sumOut (bump edges k) a = sumOut edges a + (if k.1 = a then 1 else 0) := by
  induction edges with
  | nil => simp [bump, sumOut]
  | cons e rest ih =>
    obtain ⟨k', v⟩ := e
    by_cases h : k' = k
    · subst h
      by_cases h2 : k'.1 = a
      · simp [bump, sumOut, h2]
        ring
      · simp [bump, sumOut, h2]
    · by_cases h2 : k'.1 = a
      · simp [bump, sumOut, h, h2, ih]
        ring
      · simp [bump, sumOut, h, h2, ih]

lemma sumOut_nonneg (edges : List ((String × String) × Int)) (a : String)
    (h : ∀ e ∈ edges, 1 ≤ e.2) : 0 ≤ sumOut edges a := by
  induction edges with
  | nil => simp [sumOut]
  | cons e rest ih =>
    obtain ⟨k, v⟩ := e
    have hv := h (k, v) (by simp)
    simp at hv
    have hrest := ih fun e' he' => h e' (by simp [he'])
    by_cases h2 : k.1 = a
    · simp [sumOut, h2]
      omega
    · simp [sumOut, h2]
      omega

lemma sumOut_zero_iff (edges : List ((String × String) × Int)) (a : String)
    (h : ∀ e ∈ edges, 1 ≤ e.2) :
    sumOut edges a = 0 ↔ edges.filter (fun e => decide (e.1.1 = a)) = [] := by
  induction edges with
  | nil => simp [sumOut]
  | cons e rest ih =>
    obtain ⟨k, v⟩ := e
    have hv := h (k, v) (by simp)
    simp at hv
    have hrest0 := sumOut_nonneg rest a fun e' he' => h e' (by simp [he'])
    have ihr := ih fun e' he' => h e' (by simp [he'])
    by_cases h2 : k.1 = a
    · simp only [sumOut, h2, if_pos, List.filter_cons, decide_eq_true_eq]
      constructor
      · intro hz
        omega
      · intro hz
        simp [h2] at hz
    · simp only [sumOut, List.filter_cons, decide_eq_true_eq]
      rw [if_neg h2, if_neg h2]
      simpa using ihr

lemma Chain.wf_new : Chain.new.wf := by
  constructor <;> intro e he <;> simp [Chain.new] at he

lemma Chain.wf_see {c : Chain} (h : c.wf) (a b : String) : (c.see a b).wf := by
  obtain ⟨hn, he⟩ := h
  exact ⟨bump_mem_one_le c.nodes a hn, bump_mem_one_le c.edges (a, b) he⟩

lemma foldP (P : Chain → Prop) (hP : ∀ c a b, P c → P (c.see a b)) :
    ∀ (ts : List String) (acc : Chain × String × String), P acc.1 →
      P ((ts.foldl ingestFold acc).1) := by
  intro ts
  induction ts with
  | nil => intro acc h; simpa using h
  | cons w ws ih =>
    intro acc h
    rw [List.foldl_cons]
    apply ih
    by_cases hc : acc.2.2 ≠ ""
    · simpa [ingestFold, hc] using hP _ _ _ h
    · simpa [ingestFold, hc] using h

lemma wf_ingest (T : List String) : (ingest T).wf := by
  unfold ingest
  exact Chain.wf_see
    (foldP Chain.wf (fun c a b h => Chain.wf_see h a b) T _ Chain.wf_new) _ _

lemma see_lookup_eq_sumOut {c : Chain} (a b : String)
    (h : ∀ x, lookupInt c.nodes x = sumOut c.edges x) :
    ∀ x, lookupInt (c.see a b).nodes x = sumOut (c.see a b).edges x := by
  intro x
  show lookupInt (bump c.nodes a) x = sumOut (bump c.edges (a, b)) x
  rw [lookupInt_bump, sumOut_bump, h x]

lemma nodes_eq_sumOut (T : List String) (a : String) :
    lookupInt (ingest T).nodes a = sumOut (ingest T).edges a := by
  unfold ingest
  refine see_lookup_eq_sumOut _ _
    (foldP (fun c => ∀ x, lookupInt c.nodes x = sumOut c.edges x)
      (fun c a' b' h => see_lookup_eq_sumOut a' b' h) T _ ?_) a
  intro x
  simp [Chain.new, lookupInt, sumOut]

lemma seeList_append (ps qs : List (String × String)) :
    ∀ c : Chain, seeList c (ps ++ qs) = seeList (seeList c ps) qs := by
  induction ps with
  | nil => intro c; simp [seeList]
  | cons p ps ih => intro c; simp [seeList, ih]

lemma nodes_seeList (ps : List (String × String)) :
    ∀ (c : Chain) (a : String), lookupInt (seeList c ps).nodes a
      = lookupInt c.nodes a
        + ((ps.filter (fun p => decide (p.1 = a))).length : Int) := by
  induction ps with
  | nil => intro c a; simp [seeList]
  | cons p ps ih =>
    intro c a
    rw [show seeList c (p :: ps) = seeList (c.see p.1 p.2) ps from rfl, ih]
    have hsee : lookupInt (c.see p.1 p.2).nodes a
        = lookupInt c.nodes a + (if p.1 = a then 1 else 0) :=
      lookupInt_bump c.nodes p.1 a
    rw [hsee]
    by_cases h : p.1 = a
    · simp [List.filter_cons, h]
      ring
    · simp [List.filter_cons, h]

lemma foldl_ingestFold (ts : List String) :
    ∀ (c : Chain) (f p : String), p ≠ "" → "" ∉ ts →
      ts.foldl ingestFold (c, f, p)
        = (seeList c ((p :: ts).zip ts), f, ts.getLastD p) := by
  induction ts with
  | nil =>
    intro c f p hp h
    simp [seeList]
  | cons w ws ih =>
    intro c f p hp h
    have hw : w ≠ "" := by
      intro hh
      exact h (by simp [hh])
    have hws : "" ∉ ws := fun hh => h (by simp [hh])
    rw [List.foldl_cons, show ingestFold (c, f, p) w = (c.see p w, f, w) by
      simp [ingestFold, hp]]
    rw [ih (c.see p w) f w hw hws]
    rw [show (p :: w :: ws).zip (w :: ws) = (p, w) :: (w :: ws).zip ws from rfl]
    rw [show seeList c ((p, w) :: (w :: ws).zip ws)
      = seeList (c.see p w) ((w :: ws).zip ws) from rfl]
    rw [List.getLastD_cons]

lemma zipWrap (ws : List String) :
    ∀ (w x : String),
      (w :: ws).zip (ws ++ [x]) = (w :: ws).zip ws ++ [(ws.getLastD w, x)] := by
  induction ws with
  | nil => intro w x; simp
  | cons u us ih =>
    intro w x
    rw [show ((u :: us) ++ [x]) = u :: (us ++ [x]) from rfl]
    rw [show (w :: u :: us).zip (u :: (us ++ [x]))
      = (w, u) :: (u :: us).zip (us ++ [x]) from rfl]
    rw [ih u x]
    rw [List.getLastD_cons]
    rfl

lemma ingest_eq_seeList (T : List String) (hne : T ≠ []) (h : "" ∉ T) :
    ingest T = seeList Chain.new (wrapPairs T) := by
  obtain ⟨t, ts, rfl⟩ := List.exists_cons_of_ne_nil hne
  have ht : t ≠ "" := by
    intro hh
    exact h (by simp [hh])
  have hts : "" ∉ ts := fun hh => h (by simp [hh])
  unfold ingest
  rw [List.foldl_cons, show ingestFold (Chain.new, "", "") t = (Chain.new, t, t) by
    simp [ingestFold]]
  rw [foldl_ingestFold ts Chain.new t t ht hts]
  show (seeList Chain.new ((t :: ts).zip ts)).see (ts.getLastD t) t
    = seeList Chain.new (wrapPairs (t :: ts))
  rw [show wrapPairs (t :: ts) = (t :: ts).zip (ts ++ [t]) from rfl]
  rw [zipWrap ts t t, seeList_append]
  rfl

/-- The node count after ingesting a non-empty, empty-token-free sequence `T`
is the number of positions of `T` at which the token is followed by another
(counting the wrap-around). -/
lemma nodes_ingest_count (T : List String) (hne : T ≠ []) (h : "" ∉ T)
    (a : String) :
    lookupInt (ingest T).nodes a
      = (((wrapPairs T).filter (fun p => decide (p.1 = a))).length : Int) := by
  rw [ingest_eq_seeList T hne h, nodes_seeList]
  simp [Chain.new, lookupInt]

lemma nextGo_nil (c : Chain) (seed : String) (counter : Int) (idx cursor : ℚ) :
    nextGo c seed counter idx [] cursor = .error (.notSeen seed) := rfl

lemma nextGo_cons_skip (c : Chain) (seed : String) (counter : Int) (idx : ℚ)
    (k : String × String) (ks : List (String × String)) (cursor : ℚ)
    (h : k.1 ≠ seed) :
    nextGo c seed counter idx (k :: ks) cursor
      = nextGo c seed counter idx ks cursor := by
  simp [nextGo, h]

lemma nextGo_cons_hit (c : Chain) (seed : String) (counter : Int) (idx : ℚ)
    (k : String × String) (ks : List (String × String)) (cursor : ℚ)
    (h : k.1 = seed) :
    nextGo c seed counter idx (k :: ks) cursor
      = if idx < cursor + ((lookupInt c.edges k : ℚ) / (counter : ℚ))
        then .ok k.2
        else nextGo c seed counter idx ks
          (cursor + ((lookupInt c.edges k : ℚ) / (counter : ℚ))) := by
  simp [nextGo, h]

lemma nextGo_filter (c : Chain) (seed : String) (counter : Int) (idx : ℚ) :
    ∀ (keys : List (String × String)) (cursor : ℚ),
      nextGo c seed counter idx keys cursor
        = nextGo c seed counter idx
            (keys.filter (fun k => decide (k.1 = seed))) cursor := by
  intro keys
  induction keys with
  | nil => intro cursor; rfl
  | cons k ks ih =>
    intro cursor
    by_cases h : k.1 = seed
    · rw [List.filter_cons, if_pos (by simp [h])]
      rw [nextGo_cons_hit c seed counter idx k ks cursor h,
        nextGo_cons_hit c seed counter idx k _ cursor h]
      by_cases h2 : idx < cursor + ((lookupInt c.edges k : ℚ) / (counter : ℚ))
      · rw [if_pos h2, if_pos h2]
      · rw [if_neg h2, if_neg h2, ih]
    · rw [List.filter_cons, if_neg (by simp [h])]
      rw [nextGo_cons_skip c seed counter idx k ks cursor h, ih]

lemma next_of_counter_zero (c : Chain) (keys : List (String × String)) (idx : ℚ)
    (seed : String) (h : lookupInt c.nodes seed = 0) :
    Chain.next c keys idx seed = .error (.notSeen seed) := by
  simp [Chain.next, h]

lemma next_of_counter_ne (c : Chain) (keys : List (String × String)) (idx : ℚ)
    (seed : String) (h : lookupInt c.nodes seed ≠ 0) :
    Chain.next c keys idx seed
      = nextGo c seed (lookupInt c.nodes seed) idx keys 0 := by
  simp [Chain.next, h]

lemma nextGo_error_shape (c : Chain) (seed : String) (counter : Int) (idx : ℚ) :
    ∀ (keys : List (String × String)) (cursor : ℚ) (e : MarkovErr),
      nextGo c seed counter idx keys cursor = .error e → e = .notSeen seed := by
  intro keys
  induction keys with
  | nil =>
    intro cursor e h
    rw [nextGo_nil] at h
    exact (Except.error.injEq _ _).mp h.symm ▸ rfl
  | cons k ks ih =>
    intro cursor e h
    by_cases hk : k.1 = seed
    · rw [nextGo_cons_hit c seed counter idx k ks cursor hk] at h
      by_cases h2 : idx < cursor + ((lookupInt c.edges k : ℚ) / (counter : ℚ))
      · rw [if_pos h2] at h
        exact absurd h (by simp)
      · rw [if_neg h2] at h
        exact ih _ e h
    · rw [nextGo_cons_skip c seed counter idx k ks cursor hk] at h
      exact ih _ e h

lemma next_error_shape (c : Chain) (keys : List (String × String)) (idx : ℚ)
    (seed : String) (e : MarkovErr)
    (h : Chain.next c keys idx seed = .error e) : e = .notSeen seed := by
  by_cases hz : lookupInt c.nodes seed = 0
  · rw [next_of_counter_zero c keys idx seed hz] at h
    simpa using h.symm
  · rw [next_of_counter_ne c keys idx seed hz] at h
    exact nextGo_error_shape c seed _ idx keys 0 e h

/-- When the seed has exactly one outgoing edge, of weight equal to its node
count, the sampler is forced: it returns that edge's target for any draw
below `1`.  (The `f32` computation in the source is exact here: the single
contribution is `weight/counter = 1.0`.) -/
lemma next_forced (c : Chain) (keys : List (String × String)) (idx : ℚ)
    (seed b : String)
    (hfilter : keys.filter (fun k => decide (k.1 = seed)) = [(seed, b)])
    (hc : lookupInt c.nodes seed = 1) (hw : lookupInt c.edges (seed, b) = 1)
    (hidx : idx < 1) : Chain.next c keys idx seed = .ok b := by
  have hcounter : lookupInt c.nodes seed ≠ 0 := by rw [hc]; norm_num
  rw [next_of_counter_ne c keys idx seed hcounter, nextGo_filter, hfilter, hc]
  rw [nextGo_cons_hit c seed 1 idx (seed, b) [] 0 rfl, hw]
  rw [if_pos (by push_cast; linarith)]

lemma nextGo_ok_pos (c : Chain) (seed : String) (counter : Int) (idx : ℚ)
    (hcounter : 0 < counter) :
    ∀ (keys : List (String × String)) (cursor : ℚ) (b : String), cursor ≤ idx →
      nextGo c seed counter idx keys cursor = .ok b →
      0 < lookupInt c.edges (seed, b) := by
  intro keys
  induction keys with
  | nil =>
    intro cursor b hle h
    rw [nextGo_nil] at h
    exact absurd h (by simp)
  | cons k ks ih =>
    intro cursor b hle h
    by_cases hk : k.1 = seed
    · rw [nextGo_cons_hit c seed counter idx k ks cursor hk] at h
      by_cases h2 : idx < cursor + ((lookupInt c.edges k : ℚ) / (counter : ℚ))
      · rw [if_pos h2] at h
        have hb : k.2 = b := by simpa using h
        have hkey : k = (seed, b) := by
          obtain ⟨k1, k2⟩ := k
          simp only at hk hb
          rw [hk, hb]
        have hpos : (0 : ℚ) < (lookupInt c.edges k : ℚ) / (counter : ℚ) := by
          linarith
        have hcq : (0 : ℚ) < (counter : ℚ) := by exact_mod_cast hcounter
        rcases div_pos_iff.mp hpos with ⟨hwq, _⟩ | ⟨_, hbad⟩
        · rw [← hkey]
          exact_mod_cast hwq
        · linarith
      · rw [if_neg h2] at h
        push_neg at h2
        exact ih _ b h2 h
    · rw [nextGo_cons_skip c seed counter idx k ks cursor hk] at h
      exact ih _ b hle h

lemma next_ok_pos (c : Chain) (keys : List (String × String)) (idx : ℚ)
    (seed b : String) (hidx : 0 ≤ idx) (hnn : 0 ≤ lookupInt c.nodes seed)
    (h : Chain.next c keys idx seed = .ok b) :
    0 < lookupInt c.edges (seed, b) := by
  by_cases hz : lookupInt c.nodes seed = 0
  · rw [next_of_counter_zero c keys idx seed hz] at h
    exact absurd h (by simp)
  · rw [next_of_counter_ne c keys idx seed hz] at h
    exact nextGo_ok_pos c seed _ idx (lt_of_le_of_ne hnn (Ne.symm hz)) keys 0 b
      hidx h

lemma walk_zero (c : Chain) (orders : Nat → List (String × String))
    (draws : Nat → ℚ) (w : String) (k : Nat) :
    walk c orders draws w k 0 = .ok [] := rfl

lemma walk_succ (c : Chain) (orders : Nat → List (String × String))
    (draws : Nat → ℚ) (w : String) (k n : Nat) :
    walk c orders draws w k (n + 1)
      = match Chain.next c (orders k) (draws k) w with
        | .error e => .error e
        | .ok w' =>
          match walk c orders draws w' (k + 1) n with
          | .error e => .error e
          | .ok ws => .ok (w' :: ws) := rfl

lemma walk_succ_err (c : Chain) (orders : Nat → List (String × String))
    (draws : Nat → ℚ) (w : String) (k n : Nat) (e : MarkovErr)
    (hn : Chain.next c (orders k) (draws k) w = .error e) :
    walk c orders draws w k (n + 1) = .error e := by
  rw [walk_succ, hn]

lemma walk_succ_ok (c : Chain) (orders : Nat → List (String × String))
    (draws : Nat → ℚ) (w : String) (k n : Nat) (w' : String)
    (hn : Chain.next c (orders k) (draws k) w = .ok w') :
    walk c orders draws w k (n + 1)
      = match walk c orders draws w' (k + 1) n with
        | .error e => .error e
        | .ok ws => .ok (w' :: ws) := by
  rw [walk_succ, hn]

lemma walk_length (c : Chain) (orders : Nat → List (String × String))
    (draws : Nat → ℚ) :
    ∀ (n : Nat) (w : String) (k : Nat) (ws : List String),
      walk c orders draws w k n = .ok ws → ws.length = n := by
  intro n
  induction n with
  | zero =>
    intro w k ws h
    rw [walk_zero] at h
    have : ws = [] := by simpa using h.symm
    simp [this]
  | succ n ih =>
    intro w k ws h
    cases hn : Chain.next c (orders k) (draws k) w with
    | error e => rw [walk_succ_err c orders draws w k n e hn] at h; simp at h
    | ok w' =>
      rw [walk_succ_ok c orders draws w k n w' hn] at h
      cases hw : walk c orders draws w' (k + 1) n with
      | error e => rw [hw] at h; simp at h
      | ok ws' =>
        rw [hw] at h
        simp only [Except.ok.injEq] at h
        rw [← h]
        simp [ih w' (k + 1) ws' hw]

lemma walk_error_shape (c : Chain) (orders : Nat → List (String × String))
    (draws : Nat → ℚ) :
    ∀ (n : Nat) (w : String) (k : Nat) (e : MarkovErr),
      walk c orders draws w k n = .error e → ∃ u, e = .notSeen u := by
  intro n
  induction n with
  | zero =>
    intro w k e h
    rw [walk_zero] at h
    exact absurd h (by simp)
  | succ n ih =>
    intro w k e h
    cases hn : Chain.next c (orders k) (draws k) w with
    | error e' =>
      rw [walk_succ_err c orders draws w k n e' hn] at h
      simp only [Except.error.injEq] at h
      exact ⟨w, by rw [← h]; exact next_error_shape c (orders k) (draws k) w e' hn⟩
    | ok w' =>
      rw [walk_succ_ok c orders draws w k n w' hn] at h
      cases hw : walk c orders draws w' (k + 1) n with
      | error e' =>
        rw [hw] at h
        simp only [Except.error.injEq] at h
        obtain ⟨u, hu⟩ := ih w' (k + 1) e' hw
        exact ⟨u, by rw [← h, hu]⟩
      | ok ws' => rw [hw] at h; simp at h

lemma walk_pairs (c : Chain) (orders : Nat → List (String × String))
    (draws : Nat → ℚ) (hwf : ∀ e ∈ c.nodes, 1 ≤ e.2) (hdr : ∀ k, 0 ≤ draws k) :
    ∀ (n : Nat) (w : String) (k : Nat) (ws : List String),
      walk c orders draws w k n = .ok ws →
      ∀ p ∈ (w :: ws).zip ws, 0 < lookupInt c.edges p := by
  intro n
  induction n with
  | zero =>
    intro w k ws h
    rw [walk_zero] at h
    have : ws = [] := by simpa using h.symm
    simp [this]
  | succ n ih =>
    intro w k ws h
    cases hn : Chain.next c (orders k) (draws k) w with
    | error e => rw [walk_succ_err c orders draws w k n e hn] at h; simp at h
    | ok w' =>
      rw [walk_succ_ok c orders draws w k n w' hn] at h
      cases hw : walk c orders draws w' (k + 1) n with
      | error e => rw [hw] at h; simp at h
      | ok ws' =>
        rw [hw] at h
        simp only [Except.ok.injEq] at h
        rw [← h]
        intro p hp
        rw [show (w :: w' :: ws').zip (w' :: ws')
          = (w, w') :: (w' :: ws').zip ws' from rfl] at hp
        rcases List.mem_cons.mp hp with hp | hp
        · rw [hp]
          exact next_ok_pos c (orders k) (draws k) w w' (hdr k)
            (lookupInt_nonneg c.nodes hwf w) hn
        · exact ih w' (k + 1) ws' hw p hp

lemma walk_selfLoop (c : Chain) (orders : Nat → List (String × String))
    (draws : Nat → ℚ) (w : String) (hn : lookupInt c.nodes w = 1)
    (he : lookupInt c.edges (w, w) = 1)
    (hord : ∀ k, (orders k).filter (fun p => decide (p.1 = w)) = [(w, w)])
    (hdr : ∀ k, draws k < 1) :
    ∀ (n k : Nat), walk c orders draws w k n = .ok (List.replicate n w) := by
  intro n
  induction n with
  | zero => intro k; rfl
  | succ n ih =>
    intro k
    rw [walk_succ_ok c orders draws w k n w
      (next_forced c (orders k) (draws k) w w (hord k) hn he (hdr k)),
      ih (k + 1)]
    simp [List.replicate_succ]

lemma gen_eq_walk (input init : String) (length : Int)
    (orders : Nat → List (String × String)) (draws : Nat → ℚ) :
    gen input init length orders draws
      = match walk (ingest (split input)) orders draws init 0
          (length - 1).toNat with
        | .error e => .error e
        | .ok ws => .ok (init :: ws) := rfl

lemma wordsAux_nil (acc : List Char) :
    wordsAux acc [] = if acc = [] then [] else [acc.reverse] := rfl

lemma wordsAux_cons (acc : List Char) (d : Char) (l : List Char) :
    wordsAux acc (d :: l)
      = if d = ' '
        then (if acc = [] then wordsAux [] l else acc.reverse :: wordsAux [] l)
        else wordsAux (d :: acc) l := rfl

lemma wordsAux_mem (P : Char → Prop) :
    ∀ (l acc : List Char), (∀ c ∈ acc, P c) → (∀ c ∈ l, c = ' ' ∨ P c) →
      ∀ t ∈ wordsAux acc l, t ≠ [] ∧ ∀ c ∈ t, P c := by
  intro l
  induction l with
  | nil =>
    intro acc hacc hl t ht
    by_cases ha : acc = []
    · rw [wordsAux_nil, if_pos ha] at ht
      simp at ht
    · rw [wordsAux_nil, if_neg ha] at ht
      have ht' : t = acc.reverse := by simpa using ht
      constructor
      · rw [ht']
        simpa using ha
      · intro c hc
        rw [ht'] at hc
        exact hacc c (List.mem_reverse.mp hc)
  | cons d l ih =>
    intro acc hacc hl t ht
    by_cases hd : d = ' '
    · subst hd
      rw [wordsAux_cons, if_pos rfl] at ht
      by_cases ha : acc = []
      · rw [if_pos ha] at ht
        exact ih [] (by simp) (fun c hc => hl c (by simp [hc])) t ht
      · rw [if_neg ha] at ht
        rcases List.mem_cons.mp ht with h1 | h1
        · constructor
          · rw [h1]
            simpa using ha
          · intro c hc
            rw [h1] at hc
            exact hacc c (List.mem_reverse.mp hc)
        · exact ih [] (by simp) (fun c hc => hl c (by simp [hc])) t h1
    · rw [wordsAux_cons, if_neg hd] at ht
      have hPd : P d := (hl d (by simp)).resolve_left hd
      refine ih (d :: acc) ?_ (fun c hc => hl c (by simp [hc])) t ht
      intro c hc
      rcases List.mem_cons.mp hc with h | h
      · rw [h]
        exact hPd
      · exact hacc c h

lemma wordsAux_nospace :
    ∀ (t acc : List Char), (∀ c ∈ t, c ≠ ' ') →
      wordsAux acc t
        = if acc.reverse ++ t = [] then [] else [acc.reverse ++ t] := by
  intro t
  induction t with
  | nil =>
    intro acc h
    rw [wordsAux_nil]
    simp [List.reverse_eq_nil_iff]
  | cons d t ih =>
    intro acc h
    have hd : d ≠ ' ' := h d (by simp)
    rw [wordsAux_cons, if_neg hd, ih (d :: acc) (fun c hc => h c (by simp [hc]))]
    rw [List.reverse_cons, List.append_assoc]
    rfl

lemma wordsAux_word_space :
    ∀ (t acc r : List Char), (∀ c ∈ t, c ≠ ' ') →
      wordsAux acc (t ++ ' ' :: r)
        = if acc.reverse ++ t = [] then wordsAux [] r
          else (acc.reverse ++ t) :: wordsAux [] r := by
  intro t
  induction t with
  | nil =>
    intro acc r h
    rw [show ([] : List Char) ++ ' ' :: r = ' ' :: r from rfl]
    rw [wordsAux_cons, if_pos rfl]
    simp [List.reverse_eq_nil_iff]
  | cons d t ih =>
    intro acc r h
    have hd : d ≠ ' ' := h d (by simp)
    rw [show (d :: t) ++ ' ' :: r = d :: (t ++ ' ' :: r) from rfl]
    rw [wordsAux_cons, if_neg hd, ih (d :: acc) r (fun c hc => h c (by simp [hc]))]
    rw [List.reverse_cons, List.append_assoc]
    rfl

lemma words_single (t : List Char) (hne : t ≠ []) (h : ∀ c ∈ t, c ≠ ' ') :
    words t = [t] := by
  rw [words, wordsAux_nospace t [] h]
  simp [hne]

lemma words_joinChars :
    ∀ ws : List (List Char),
      (∀ t ∈ ws, t ≠ [] ∧ ∀ c ∈ t, c ≠ ' ') → words (joinChars ws) = ws := by
  intro ws
  induction ws with
  | nil => intro h; rfl
  | cons t ts ih =>
    intro h
    obtain ⟨ht, htc⟩ := h t (by simp)
    cases ts with
    | nil =>
      rw [show joinChars [t] = t from rfl]
      exact words_single t ht htc
    | cons t' ts' =>
      rw [show joinChars (t :: t' :: ts') = t ++ ' ' :: joinChars (t' :: ts')
        from rfl]
      rw [words, wordsAux_word_space t [] (joinChars (t' :: ts')) htc]
      simp only [List.reverse_nil, List.nil_append]
      rw [if_neg ht]
      rw [show wordsAux [] (joinChars (t' :: ts')) = words (joinChars (t' :: ts'))
        from rfl]
      rw [ih (fun u hu => h u (by simp [hu]))]

lemma mem_joinChars :
    ∀ (ws : List (List Char)) (c : Char), c ∈ joinChars ws →
      c = ' ' ∨ ∃ t ∈ ws, c ∈ t := by
  intro ws
  induction ws with
  | nil =>
    intro c hc
    simp [joinChars] at hc
  | cons t ts ih =>
    intro c hc
    cases ts with
    | nil =>
      right
      exact ⟨t, by simp, by simpa [joinChars] using hc⟩
    | cons t' ts' =>
      rw [show joinChars (t :: t' :: ts') = t ++ ' ' :: joinChars (t' :: ts')
        from rfl] at hc
      rcases List.mem_append.mp hc with h | h
      · right
        exact ⟨t, by simp, h⟩
      · rcases List.mem_cons.mp h with h | h
        · left
          exact h
        · rcases ih c h with h | ⟨u, hu, hcu⟩
          · left
            exact h
          · right
            exact ⟨u, List.mem_cons_of_mem t hu, hcu⟩

lemma keepChar_iff (c : Char) :
    keepChar c = true ↔ ('a' ≤ c ∧ c ≤ 'z') ∨ c = ' ' := by
  simp [keepChar]

lemma az_ne_space (c : Char) (h : 'a' ≤ c) : c ≠ ' ' := by
  intro he
  rw [he] at h
  exact absurd h (by decide)

lemma rustCharLower_id (c : Char) (h : ('a' ≤ c ∧ c ≤ 'z') ∨ c = ' ') :
    rustCharLower c = [c] := by
  rcases h with ⟨h1, h2⟩ | h
  · have h3 : ¬ ('A' ≤ c ∧ c ≤ 'Z') := by
      rintro ⟨hA, hZ⟩
      exact absurd (le_trans h1 hZ) (by decide)
    have h4 : c ≠ Char.ofNat 0x130 := by
      intro he
      rw [he] at h2
      exact absurd h2 (by decide)
    have h5 : c ≠ Char.ofNat 0x212A := by
      intro he
      rw [he] at h2
      exact absurd h2 (by decide)
    rw [rustCharLower, if_neg h3, if_neg h4, if_neg h5]
  · rw [h]
    decide

lemma lowerChars_id (l : List Char) (h : ∀ c ∈ l, rustCharLower c = [c]) :
    lowerChars l = l := by
  induction l with
  | nil => rfl
  | cons c cs ih =>
    rw [show lowerChars (c :: cs) = rustCharLower c ++ lowerChars cs from rfl]
    rw [h c (by simp), ih (fun c' hc' => h c' (by simp [hc']))]
    rfl

lemma cleanChars_mem (s : List Char) :
    ∀ c ∈ cleanChars s, ('a' ≤ c ∧ c ≤ 'z') ∨ c = ' ' := by
  intro c hc
  exact (keepChar_iff c).mp (List.of_mem_filter hc)

lemma rustCharLower_eq_ascii (c : Char) (h1 : c ≠ Char.ofNat 0x212A)
    (h2 : c ≠ Char.ofNat 0x130) : rustCharLower c = [asciiLower c] := by
  by_cases hAZ : 'A' ≤ c ∧ c ≤ 'Z'
  · rw [rustCharLower, if_pos hAZ, asciiLower, if_pos hAZ]
  · rw [rustCharLower, if_neg hAZ, if_neg h2, if_neg h1, asciiLower, if_neg hAZ]

lemma lowerChars_eq_map (s : List Char) (h1 : Char.ofNat 0x212A ∉ s)
    (h2 : Char.ofNat 0x130 ∉ s) : lowerChars s = s.map asciiLower := by
  induction s with
  | nil => rfl
  | cons c cs ih =>
    rw [show lowerChars (c :: cs) = rustCharLower c ++ lowerChars cs from rfl]
    rw [rustCharLower_eq_ascii c (fun he => h1 (by simp [he]))
      (fun he => h2 (by simp [he]))]
    rw [ih (fun hm => h1 (by simp [hm])) (fun hm => h2 (by simp [hm]))]
    rfl

lemma data_mk (l : List Char) : (String.mk l).data = l := rfl

/-- C1, counterexample: the claim says `gen` with `length = 0` returns the
empty sequence; on the code, `gen "a" "a" 0` returns `["a"]`, which has one
element, not zero (the output is seeded with `init` before the loop). -/
theorem C1_counterexample :
    gen "a" "a" 0 (fun _ => [("a", "a")]) (fun _ => 0) = .ok ["a"]
      ∧ (["a"] : List String).length ≠ 0 :=
  ⟨rfl, by decide⟩

/-- C1 (amended): for every corpus, start token, length, edge-enumeration
order and draw sequence, a successful call to `gen` returns a sequence of
exactly `max 1 length` tokens whose first element equals `start`; in
particular `length = 1` returns `[start]`, and `length = 0` (or any negative
length) returns `[start]` as well, not the empty sequence. -/
theorem C1_gen_length (input init : String) (length : Int)
    (orders : Nat → List (String × String)) (draws : Nat → ℚ)
    (res : List String) (h : gen input init length orders draws = .ok res) :
    res.length = (max 1 length).toNat ∧ res.head? = some init := by
  rw [gen_eq_walk] at h
  cases hw : walk (ingest (split input)) orders draws init 0
      (length - 1).toNat with
  | error e => rw [hw] at h; simp at h
  | ok ws =>
    rw [hw] at h
    simp only [Except.ok.injEq] at h
    rw [← h]
    have hlen := walk_length (ingest (split input)) orders draws
      (length - 1).toNat init 0 ws hw
    constructor
    · simp only [List.length_cons, hlen]
      omega
    · rfl

/-- Witness for C1's amended theorem at corpus `"a"`, start `"a"`,
length `3`. -/
theorem C1_gen_length_witness :
    (["a", "a", "a"] : List String).length = (max 1 (3 : Int)).toNat
      ∧ (["a", "a", "a"] : List String).head? = some "a" := by
  refine C1_gen_length "a" "a" 3 (fun _ => [("a", "a")]) (fun _ => 0)
    ["a", "a", "a"] ?_
  rw [gen_eq_walk, show ((3 : Int) - 1).toNat = 2 from rfl]
  rw [walk_selfLoop (ingest (split "a")) (fun _ => [("a", "a")]) (fun _ => 0)
    "a" rfl rfl (fun _ => rfl) (fun _ => zero_lt_one) 2 0]
  rfl

/-- C8: for every corpus, start token, enumeration order and draw sequence,
and every `length ≤ 1` (including `0` and all negative `i32` values), `gen`
returns `Ok [start]` without any call to the sampler. -/
theorem C8_gen_short (input init : String) (length : Int)
    (orders : Nat → List (String × String)) (draws : Nat → ℚ)
    (h : length ≤ 1) : gen input init length orders draws = .ok [init] := by
  rw [gen_eq_walk, show (length - 1).toNat = 0 by omega, walk_zero]

/-- Witness for C8 at a negative length on an empty corpus with an unseen
start token. -/
theorem C8_gen_short_witness :
    gen "" "x" (-3) (fun _ => []) (fun _ => 0) = .ok ["x"] :=
  C8_gen_short "" "x" (-3) (fun _ => []) (fun _ => 0) (by norm_num)

/-- C2, counterexample: for the empty token sequence `T = []` the claim
fails — `gen`'s ingestion still records the pair `("", "")`, so
`out_count[""]` is `1`, while the number of positions of `T` at which `""`
is followed by some token is `0`. -/
theorem C2_counterexample :
    lookupInt (ingest ([] : List String)).nodes "" = 1
      ∧ ((wrapPairs ([] : List String)).filter
          (fun p => decide (p.1 = ""))).length = 0 :=
  ⟨rfl, rfl⟩

/-- C2 (amended): after ingesting any token sequence `T` (the see operations
`gen` performs on `T`), every stored edge value is `≥ 1`; for every token
`a`, `out_count[a] = Σ_b edge[(a, b)]`, and `out_count[a] = 0` exactly when
no key in `edge` begins with `a`; and when `T` is non-empty and contains no
empty token (as is the case for every tokenizer output), both counts equal
the number of positions in `T` at which `a` is followed by some token,
counting the wrap-around pair.  (For empty `T` the ingestion records the
extra pair `("", "")`, so the position-count clause needs `T ≠ []`.) -/
theorem C2_count_consistency :
    (∀ T : List String, ∀ e ∈ (ingest T).edges, 1 ≤ e.2)
    ∧ (∀ (T : List String) (a : String),
        lookupInt (ingest T).nodes a = sumOut (ingest T).edges a)
    ∧ (∀ (T : List String) (a : String),
        lookupInt (ingest T).nodes a = 0
          ↔ (ingest T).edges.filter (fun e => decide (e.1.1 = a)) = [])
    ∧ (∀ (T : List String) (a : String), T ≠ [] → "" ∉ T →
        lookupInt (ingest T).nodes a
          = (((wrapPairs T).filter (fun p => decide (p.1 = a))).length : Int)) := by
  refine ⟨fun T => (wf_ingest T).2, fun T a => nodes_eq_sumOut T a, ?_, ?_⟩
  · intro T a
    rw [nodes_eq_sumOut T a]
    exact sumOut_zero_iff (ingest T).edges a (wf_ingest T).2
  · intro T a hne h
    exact nodes_ingest_count T hne h a

/-- Witness for C2 at `T = ["a", "b"]`, token `"a"`. -/
theorem C2_count_consistency_witness :
    lookupInt (ingest ["a", "b"]).nodes "a"
      = (((wrapPairs ["a", "b"]).filter
          (fun p => decide (p.1 = "a"))).length : Int) :=
  C2_count_consistency.2.2.2 ["a", "b"] "a" (by decide) (by decide)

/-- C3, counterexample: for a corpus with empty tokenization the chain built
by `gen` is not empty — it holds the self-loop edge `("", "")` — and with
start token `""` and length `2` generation succeeds instead of failing. -/
theorem C3_counterexample :
    (ingest (split "")).edges = [(("", ""), 1)]
      ∧ gen "" "" 2 (fun _ => [("", "")]) (fun _ => 0) = .ok ["", ""] := by
  refine ⟨rfl, ?_⟩
  rw [gen_eq_walk, show ((2 : Int) - 1).toNat = 1 from rfl]
  rw [walk_selfLoop (ingest (split "")) (fun _ => [("", "")]) (fun _ => 0)
    "" rfl rfl (fun _ => rfl) (fun _ => zero_lt_one) 1 0]
  rfl

/-- C3 (amended): for every corpus whose tokenization is empty, the chain
built by `gen` consists of exactly the node count `"" ↦ 1` and the single
self-loop edge `("", "") ↦ 1` (recorded by the unconditional wrap-around
`see`); for every start token other than `""` and every `length ≥ 2`, the
first sample call fails with `NotSeen(start)` and `gen` returns that
error. -/
theorem C3_empty_corpus (input : String) (hsplit : split input = [])
    (start : String) (hs : start ≠ "") (length : Int) (hl : 2 ≤ length)
    (orders : Nat → List (String × String)) (draws : Nat → ℚ) :
    ingest (split input) = ⟨[("", 1)], [(("", ""), 1)]⟩
      ∧ gen input start length orders draws = .error (.notSeen start) := by
  have hchain : ingest (split input) = ⟨[("", 1)], [(("", ""), 1)]⟩ := by
    rw [hsplit]
    rfl
  refine ⟨hchain, ?_⟩
  have hnext : Chain.next (ingest (split input)) (orders 0) (draws 0) start
      = .error (.notSeen start) := by
    apply next_of_counter_zero
    rw [hchain]
    show lookupInt [("", 1)] start = 0
    simp [lookupInt, hs.symm]
  obtain ⟨n, hn⟩ : ∃ n, (length - 1).toNat = n + 1 :=
    ⟨(length - 1).toNat - 1, by omega⟩
  rw [gen_eq_walk, hn,
    walk_succ_err (ingest (split input)) orders draws start 0 n
      (.notSeen start) hnext]

/-- Witness for C3's amended theorem at corpus `"!"` (which tokenizes to
nothing), start `"x"`, length `2`. -/
theorem C3_empty_corpus_witness :
    ingest (split "!") = (⟨[("", 1)], [(("", ""), 1)]⟩ : Chain)
      ∧ gen "!" "x" 2 (fun _ => [("", "")]) (fun _ => 0)
          = .error (.notSeen "x") :=
  C3_empty_corpus "!" rfl "x" (by decide) 2 (by norm_num)
    (fun _ => [("", "")]) (fun _ => 0)

/-- C4: sampling a seed whose node count is zero (in particular an absent
seed) fails with `NotSeen(seed)`; `NotSeen` is the only error the sampler
can produce (never `Error` or `NotImplemented`); every error `gen` returns
is a `NotSeen`; and `gen` propagates a failing walk's error unchanged (the
result is the error alone — no partial output accompanies it). -/
theorem C4_error_taxonomy :
    (∀ (c : Chain) (keys : List (String × String)) (idx : ℚ) (seed : String),
        lookupInt c.nodes seed = 0 →
        Chain.next c keys idx seed = .error (.notSeen seed))
    ∧ (∀ (c : Chain) (keys : List (String × String)) (idx : ℚ)
        (seed : String) (e : MarkovErr),
        Chain.next c keys idx seed = .error e → e = .notSeen seed)
    ∧ (∀ (input init : String) (length : Int)
        (orders : Nat → List (String × String)) (draws : Nat → ℚ)
        (e : MarkovErr),
        gen input init length orders draws = .error e → ∃ u, e = .notSeen u)
    ∧ (∀ (input init : String) (length : Int)
        (orders : Nat → List (String × String)) (draws : Nat → ℚ)
        (e : MarkovErr),
        walk (ingest (split input)) orders draws init 0 (length - 1).toNat
          = .error e →
        gen input init length orders draws = .error e) := by
  refine ⟨fun c keys idx seed h => next_of_counter_zero c keys idx seed h,
    fun c keys idx seed e h => next_error_shape c keys idx seed e h, ?_, ?_⟩
  · intro input init length orders draws e h
    rw [gen_eq_walk] at h
    cases hw : walk (ingest (split input)) orders draws init 0
        (length - 1).toNat with
    | error e' =>
      rw [hw] at h
      simp only [Except.error.injEq] at h
      rw [← h]
      exact walk_error_shape (ingest (split input)) orders draws
        (length - 1).toNat init 0 e' hw
    | ok ws => rw [hw] at h; simp at h
  · intro input init length orders draws e h
    rw [gen_eq_walk, h]

/-- Witness for C4 on the empty chain with seed `"x"`. -/
theorem C4_error_taxonomy_witness :
    Chain.next Chain.new [] 0 "x" = .error (.notSeen "x") :=
  C4_error_taxonomy.1 Chain.new [] 0 "x" rfl

/-- C5, counterexample: `split` is not the spec's ASCII-only reference
algorithm.  On the one-character input `U+212A` (KELVIN SIGN) the code's
Unicode case fold produces the ASCII letter `k`, which survives the filter,
while the ASCII-only reference leaves the character unfolded and drops it. -/
theorem C5_counterexample :
    split (String.mk [Char.ofNat 0x212A]) = ["k"]
      ∧ specTokenize (String.mk [Char.ofNat 0x212A]) = []
      ∧ (["k"] : List String) ≠ [] :=
  ⟨by decide, by decide, by decide⟩

/-- C5 (amended): `split` case-folds with full Unicode semantics, not ASCII
semantics; it agrees with the spec's ASCII-only reference algorithm on every
input containing neither `U+212A` nor `U+0130` (the only code points whose
Unicode lowercase form contains an ASCII letter without being ASCII `A`–`Z`
themselves).  Unconditionally, every output token is non-empty and consists
only of letters `a`–`z`, and the tokenizer is total. -/
theorem C5_tokenizer_unicode :
    (∀ s : String, Char.ofNat 0x212A ∉ s.data → Char.ofNat 0x130 ∉ s.data →
        split s = specTokenize s)
    ∧ (∀ (s t : String), t ∈ split s →
        t.data ≠ [] ∧ ∀ c ∈ t.data, 'a' ≤ c ∧ c ≤ 'z') := by
  constructor
  · intro s h1 h2
    rw [split, specTokenize, cleanChars, lowerChars_eq_map s.data h1 h2]
  · intro s t ht
    rw [split] at ht
    obtain ⟨tc, htc, hmk⟩ := List.mem_map.mp ht
    rw [words] at htc
    have hmem := wordsAux_mem (fun c => 'a' ≤ c ∧ c ≤ 'z') (cleanChars s.data)
      [] (by simp) (fun c hc => (cleanChars_mem s.data c hc).symm) tc htc
    rw [← hmk, data_mk]
    exact hmem

/-- Witness for C5's amended theorem on a plain ASCII input. -/
theorem C5_tokenizer_unicode_witness :
    split "Hello, World!" = specTokenize "Hello, World!" :=
  C5_tokenizer_unicode.1 "Hello, World!" (by decide) (by decide)

/-- C6: for the corpus `"a b c"`, start `"a"`, and length `4`, generation
succeeds for every draw sequence in `[0, 1)` and every enumeration order of
the edge map, and the output is forced to `["a", "b", "c", "a"]` — each of
`a`, `b`, `c` has a single outgoing edge (`a→b`, `b→c`, wrap-around
`c→a`). -/
theorem C6_forced_abc (orders : Nat → List (String × String))
    (draws : Nat → ℚ)
    (hord : ∀ k, List.Perm (orders k)
      ((ingest (split "a b c")).edges.map (fun e => e.1)))
    (hdr : ∀ k, 0 ≤ draws k ∧ draws k < 1) :
    gen "a b c" "a" 4 orders draws = .ok ["a", "b", "c", "a"] := by
  have hfilter : ∀ (k : Nat) (x y : String),
      (([("a", "b"), ("b", "c"), ("c", "a")] : List (String × String)).filter
        (fun p => decide (p.1 = x)) = [(x, y)]) →
      (orders k).filter (fun p => decide (p.1 = x)) = [(x, y)] := by
    intro k x y hxy
    have h := (hord k).filter (fun p => decide (p.1 = x))
    rw [show (ingest (split "a b c")).edges.map (fun e => e.1)
      = [("a", "b"), ("b", "c"), ("c", "a")] from rfl, hxy] at h
    exact List.perm_singleton.mp h
  have hna : ∀ k, Chain.next (ingest (split "a b c")) (orders k) (draws k) "a"
      = .ok "b" := fun k =>
    next_forced _ _ _ "a" "b" (hfilter k "a" "b" rfl) rfl rfl (hdr k).2
  have hnb : ∀ k, Chain.next (ingest (split "a b c")) (orders k) (draws k) "b"
      = .ok "c" := fun k =>
    next_forced _ _ _ "b" "c" (hfilter k "b" "c" rfl) rfl rfl (hdr k).2
  have hnc : ∀ k, Chain.next (ingest (split "a b c")) (orders k) (draws k) "c"
      = .ok "a" := fun k =>
    next_forced _ _ _ "c" "a" (hfilter k "c" "a" rfl) rfl rfl (hdr k).2
  rw [gen_eq_walk, show ((4 : Int) - 1).toNat = 3 from rfl]
  rw [walk_succ_ok (ingest (split "a b c")) orders draws "a" 0 2 "b" (hna 0)]
  rw [walk_succ_ok (ingest (split "a b c")) orders draws "b" 1 1 "c" (hnb 1)]
  rw [walk_succ_ok (ingest (split "a b c")) orders draws "c" 2 0 "a" (hnc 2)]
  rw [walk_zero]

/-- Witness for C6 with the stored enumeration order and all-zero draws. -/
theorem C6_forced_abc_witness :
    gen "a b c" "a" 4 (fun _ => [("a", "b"), ("b", "c"), ("c", "a")])
      (fun _ => 0) = .ok ["a", "b", "c", "a"] :=
  C6_forced_abc (fun _ => [("a", "b"), ("b", "c"), ("c", "a")]) (fun _ => 0)
    (fun _ => List.Perm.refl _) (fun _ => ⟨le_refl 0, zero_lt_one⟩)

/-- C7: re-tokenizing the space-joined output of the tokenizer returns the
same token sequence: `split (join (split s) " ") = split s` for every input
string. -/
theorem C7_tokenizer_idempotent (s : String) :
    split (joinSpace (split s)) = split s := by
  have hmem : ∀ t ∈ words (cleanChars s.data),
      t ≠ [] ∧ ∀ c ∈ t, 'a' ≤ c ∧ c ≤ 'z' := by
    intro t ht
    rw [words] at ht
    exact wordsAux_mem (fun c => 'a' ≤ c ∧ c ≤ 'z') (cleanChars s.data) []
      (by simp) (fun c hc => (cleanChars_mem s.data c hc).symm) t ht
  have hdata : (joinSpace (split s)).data
      = joinChars (words (cleanChars s.data)) := by
    rw [split, joinSpace, data_mk, List.map_map]
    rw [show String.data ∘ String.mk = id from rfl, List.map_id]
  have hjoin_mem : ∀ c ∈ joinChars (words (cleanChars s.data)),
      ('a' ≤ c ∧ c ≤ 'z') ∨ c = ' ' := by
    intro c hc
    rcases mem_joinChars (words (cleanChars s.data)) c hc with h | ⟨t, ht, hct⟩
    · right
      exact h
    · left
      exact (hmem t ht).2 c hct
  have hclean : cleanChars (joinChars (words (cleanChars s.data)))
      = joinChars (words (cleanChars s.data)) := by
    rw [cleanChars,
      lowerChars_id _ (fun c hc => rustCharLower_id c (hjoin_mem c hc))]
    exact List.filter_eq_self.mpr
      (fun c hc => (keepChar_iff c).mpr (hjoin_mem c hc))
  rw [show split (joinSpace (split s))
    = (words (cleanChars (joinSpace (split s)).data)).map String.mk from rfl]
  rw [hdata, hclean]
  rw [words_joinChars (words (cleanChars s.data)) (fun t ht =>
    ⟨(hmem t ht).1, fun c hc => az_ne_space c ((hmem t ht).2 c hc).1⟩)]
  rfl

/-- C9: when the corpus tokenizes to nothing, `gen` records the self-loop
`("", "")`, giving the empty-string token outgoing weight `1`; generation
from start `""` therefore never fails and yields empty-string tokens for
every length (and every enumeration order and draw sequence in `[0, 1)`). -/
theorem C9_empty_corpus_self_loop (input : String) (hsplit : split input = [])
    (length : Int) (orders : Nat → List (String × String)) (draws : Nat → ℚ)
    (hord : ∀ k, List.Perm (orders k)
      ((ingest (split input)).edges.map (fun e => e.1)))
    (hdr : ∀ k, 0 ≤ draws k ∧ draws k < 1) :
    lookupInt (ingest (split input)).edges ("", "") = 1
      ∧ gen input "" length orders draws
          = .ok (List.replicate (max 1 length).toNat "") := by
  have hchain : ingest (split input) = ⟨[("", 1)], [(("", ""), 1)]⟩ := by
    rw [hsplit]
    rfl
  constructor
  · rw [hchain]
    rfl
  · have hord' : ∀ k, (orders k).filter (fun p => decide (p.1 = ""))
        = [("", "")] := by
      intro k
      have h := (hord k).filter (fun p => decide (p.1 = ""))
      rw [hchain] at h
      exact List.perm_singleton.mp h
    rw [gen_eq_walk]
    rw [walk_selfLoop (ingest (split input)) orders draws ""
      (by rw [hchain]; rfl) (by rw [hchain]; rfl) hord'
      (fun k => (hdr k).2) (length - 1).toNat 0]
    rw [show (max 1 length).toNat = (length - 1).toNat + 1 by omega]
    rfl

/-- Witness for C9 at corpus `"?"` (empty tokenization) and length `3`. -/
theorem C9_empty_corpus_self_loop_witness :
    lookupInt (ingest (split "?")).edges ("", "") = 1
      ∧ gen "?" "" 3 (fun _ => [("", "")]) (fun _ => 0)
          = .ok (List.replicate (max 1 (3 : Int)).toNat "") :=
  C9_empty_corpus_self_loop "?" rfl 3 (fun _ => [("", "")]) (fun _ => 0)
    (fun _ => List.Perm.refl _) (fun _ => ⟨le_refl 0, zero_lt_one⟩)

/-- C10: whenever the sampler returns `Ok b` for a seed (for a non-negative
draw and a non-negative node count, as ingestion guarantees), the pair
`(seed, b)` is stored in the edge map with positive weight; consequently
every adjacent pair in a successful `gen` output (with `length ≥ 2`) is an
edge recorded while ingesting the corpus. -/
theorem C10_sampled_edges_recorded :
    (∀ (c : Chain) (keys : List (String × String)) (idx : ℚ) (seed b : String),
        0 ≤ idx → 0 ≤ lookupInt c.nodes seed →
        Chain.next c keys idx seed = .ok b → 0 < lookupInt c.edges (seed, b))
    ∧ (∀ (input init : String) (length : Int)
        (orders : Nat → List (String × String)) (draws : Nat → ℚ)
        (res : List String),
        2 ≤ length → (∀ k, 0 ≤ draws k) →
        gen input init length orders draws = .ok res →
        ∀ p ∈ res.zip res.tail,
          0 < lookupInt (ingest (split input)).edges p) := by
  constructor
  · intro c keys idx seed b hidx hnn h
    exact next_ok_pos c keys idx seed b hidx hnn h
  · intro input init length orders draws res _ hdr h
    rw [gen_eq_walk] at h
    cases hw : walk (ingest (split input)) orders draws init 0
        (length - 1).toNat with
    | error e => rw [hw] at h; simp at h
    | ok ws =>
      rw [hw] at h
      simp only [Except.ok.injEq] at h
      rw [← h]
      exact walk_pairs (ingest (split input)) orders draws
        (wf_ingest (split input)).1 hdr (length - 1).toNat init 0 ws hw

/-- Witness for C10 at corpus `"a b"`, start `"a"`, length `2`. -/
theorem C10_sampled_edges_recorded_witness :
    0 < lookupInt (ingest (split "a b")).edges ("a", "b") := by
  refine C10_sampled_edges_recorded.2 "a b" "a" 2
    (fun _ => [("a", "b"), ("b", "a")]) (fun _ => 0) ["a", "b"]
    (by norm_num) (fun _ => le_refl 0) ?_ ("a", "b") (by decide)
  rw [gen_eq_walk, show ((2 : Int) - 1).toNat = 1 from rfl]
  rw [walk_succ_ok (ingest (split "a b")) (fun _ => [("a", "b"), ("b", "a")])
    (fun _ => 0) "a" 0 0 "b"
    (next_forced _ _ _ "a" "b" rfl rfl rfl zero_lt_one)]
  rw [walk_zero]

end Markov
